import Mathlib

/-!
Shallow embedding of the quad batch renderer in `src/rio/src/renderer/quad/mod.rs`.

Modelling conventions:
* `f32` values that are only moved around (never computed with) are modelled by
  their 32-bit pattern as a `Nat` (for `Quad`, whose claims are about byte
  layout), or by `ℚ` (for the uniform matrix and the unit-quad vertices, whose
  claims are about which literal values appear).
* GPU calls are modelled as a trace: `draw` returns the uniform record it
  uploads, the size of the uniform write, and the list of per-chunk
  sub-batches (uploaded bytes, write sizes, and `draw_indexed` arguments)
  that the `while` loop issues, in order.
-/

namespace Rio

/-- Little-endian bytes of one 32-bit word (an `f32` bit pattern). -/
def w32le (w : Nat) : List Nat :=
  [w % 256, w / 256 % 256, w / 65536 % 256, w / 16777216 % 256]

/-- Read one 32-bit word from the front of a byte list, returning the rest. -/
def rdWord : List Nat → Nat × List Nat
  | b0 :: b1 :: b2 :: b3 :: rest => (b0 + 256 * b1 + 65536 * b2 + 16777216 * b3, rest)
  | bs => (0, bs)

/-- Four 32-bit words, the shape of the `[f32; 4]` fields of `Quad`. -/
abbrev Word4 := Nat × Nat × Nat × Nat

/-- The `Quad` struct: `position: [f32; 2]`, `size: [f32; 2]`, `color: [f32; 4]`,
`border_color: [f32; 4]`, `border_radius: [f32; 4]`, `border_width: f32`,
declared `#[repr(C)]`; each `f32` is modelled by its bit pattern. -/
structure Quad where
  position : Nat × Nat
  size : Nat × Nat
  color : Word4
  border_color : Word4
  border_radius : Word4
  border_width : Nat
deriving DecidableEq, Repr

/-- A bit-pattern field of a well-formed `Quad` fits in 32 bits. -/
def WordWF (w : Nat) : Prop := w < 4294967296

/-- All seventeen 32-bit fields of the `Quad` are genuine 32-bit patterns. -/
def QuadWF (q : Quad) : Prop :=
  WordWF q.position.1 ∧ WordWF q.position.2 ∧
  WordWF q.size.1 ∧ WordWF q.size.2 ∧
  WordWF q.color.1 ∧ WordWF q.color.2.1 ∧ WordWF q.color.2.2.1 ∧ WordWF q.color.2.2.2 ∧
  WordWF q.border_color.1 ∧ WordWF q.border_color.2.1 ∧
  WordWF q.border_color.2.2.1 ∧ WordWF q.border_color.2.2.2 ∧
  WordWF q.border_radius.1 ∧ WordWF q.border_radius.2.1 ∧
  WordWF q.border_radius.2.2.1 ∧ WordWF q.border_radius.2.2.2 ∧
  WordWF q.border_width

instance (q : Quad) : Decidable (QuadWF q) := by
  unfold QuadWF WordWF; infer_instance

/-- The bytes of one `Quad` in the instance buffer: the seventeen 32-bit fields
in declaration order (`#[repr(C)]`, all fields 4-byte aligned, no padding),
as `bytemuck::cast_slice` produces them. -/
def quadToBytes (q : Quad) : List Nat :=
  w32le q.position.1 ++ w32le q.position.2 ++
  w32le q.size.1 ++ w32le q.size.2 ++
  w32le q.color.1 ++ w32le q.color.2.1 ++ w32le q.color.2.2.1 ++ w32le q.color.2.2.2 ++
  w32le q.border_color.1 ++ w32le q.border_color.2.1 ++
  w32le q.border_color.2.2.1 ++ w32le q.border_color.2.2.2 ++
  w32le q.border_radius.1 ++ w32le q.border_radius.2.1 ++
  w32le q.border_radius.2.2.1 ++ w32le q.border_radius.2.2.2 ++
  w32le q.border_width

/-- Read a `Quad` back from instance-buffer bytes via the declared per-instance
attribute schema: seventeen consecutive 32-bit words in the order position.xy,
size.xy, color rgba, border_color rgba, border_radius (4 corners),
border_width. -/
def quadOfBytes (bs : List Nat) : Quad :=
  let (p0, bs) := rdWord bs
  let (p1, bs) := rdWord bs
  let (s0, bs) := rdWord bs
  let (s1, bs) := rdWord bs
  let (c0, bs) := rdWord bs
  let (c1, bs) := rdWord bs
  let (c2, bs) := rdWord bs
  let (c3, bs) := rdWord bs
  let (bc0, bs) := rdWord bs
  let (bc1, bs) := rdWord bs
  let (bc2, bs) := rdWord bs
  let (bc3, bs) := rdWord bs
  let (br0, bs) := rdWord bs
  let (br1, bs) := rdWord bs
  let (br2, bs) := rdWord bs
  let (br3, bs) := rdWord bs
  let (bw, _) := rdWord bs
  { position := (p0, p1), size := (s0, s1), color := (c0, c1, c2, c3),
    border_color := (bc0, bc1, bc2, bc3), border_radius := (br0, br1, br2, br3),
    border_width := bw }

/-- Byte offsets of a `#[repr(C)]` field list with the given byte sizes,
starting at `acc` (all fields here are 4-byte-aligned `f32` data, so fields
are laid out back to back with no inserted padding). -/
def offsetsFrom (acc : Nat) : List Nat → List Nat
  | [] => []
  | s :: rest => acc :: offsetsFrom (acc + s) rest

/-- Byte sizes of the fields of `Quad`, in declaration order. -/
def quadFieldBytes : List Nat := [8, 8, 16, 16, 16, 4]

/-- The float counts of the per-instance vertex attributes declared by
`wgpu::vertex_attr_array!`: `Float32x2, Float32x2, Float32x4, Float32x4,
Float32x4, Float32` at shader locations 1 through 6. -/
def quadVertexAttrFloats : List Nat := [2, 2, 4, 4, 4, 1]

/-- The value of `mem::size_of::<Quad>()`: sum of the field sizes, since the
`#[repr(C)]` struct of seventeen `f32`s has no padding. -/
def sizeOfQuad : Nat := quadFieldBytes.sum

/-- Byte sizes of the fields of `Uniforms`: `transform: [f32; 16]`,
`scale: f32`, `_padding: [f32; 3]`, declared `#[repr(C)]`. -/
def uniformsFieldBytes : List Nat := [64, 4, 12]

/-- The value of `mem::size_of::<Uniforms>()`. -/
def sizeOfUniforms : Nat := uniformsFieldBytes.sum

/-- A vertex of the unit quad, `_position: [f32; 2]`, with exact values. -/
structure Vertex where
  pos : ℚ × ℚ
deriving DecidableEq, Repr

/-- The constant `QUAD_INDICES: [u16; 6] = [0, 1, 2, 0, 2, 3]`. -/
def QUAD_INDICES : List Nat := [0, 1, 2, 0, 2, 3]

/-- The constant `QUAD_VERTS: [Vertex; 4]`, the unit-quad corner positions. -/
def QUAD_VERTS : List Vertex :=
  [⟨(0, 0)⟩, ⟨(1, 0)⟩, ⟨(1, 1)⟩, ⟨(0, 1)⟩]

/-- The constant `MAX_INSTANCES: usize = 100_000`. -/
def MAX_INSTANCES : Nat := 100000

/-- Modelled from the spec: the `Transformation` type lives in the missing
`transformation.rs` and is consumed here as an opaque 4x4 `f32` matrix
(`transformation.as_ref(): [f32; 16]`); we carry the sixteen entries exactly. -/
structure Transformation where
  mat : List ℚ
deriving DecidableEq, Repr

/-- The matrix handed out by `Transformation::as_ref`. -/
def Transformation.as_ref (t : Transformation) : List ℚ := t.mat

/-- The hardcoded literal matrix `a` built at the top of `Pipeline::draw`. -/
def hardcodedA : List ℚ :=
  [0.001510574, 0, 0, 0, 0, -0.002283105, 0, 0, 0, 0, 1, 0, -1, 1, 0, 1]

/-- The `Uniforms` struct with exact values: `transform: [f32; 16]`,
`scale: f32`, `_padding: [f32; 3]`. -/
structure Uniforms where
  transform : List ℚ
  scale : ℚ
  padding : List ℚ
deriving DecidableEq, Repr

/-- The constructor `Uniforms::from_a(transformation: [f32; 16], scale: f32)`. -/
def Uniforms.from_a (transformation : List ℚ) (scale : ℚ) : Uniforms :=
  { transform := transformation, scale := scale, padding := [0, 0, 0] }

/-- The constructor `Uniforms::new(transformation: Transformation, scale: f32)`. -/
def Uniforms.new (transformation : Transformation) (scale : ℚ) : Uniforms :=
  { transform := transformation.as_ref, scale := scale, padding := [0, 0, 0] }

/-- One iteration of the chunk loop in `Pipeline::draw`: the staged instance
bytes and their write size, plus the `draw_indexed` arguments. -/
structure DrawCall where
  chunk : List Quad
  instanceBytes : List Nat
  writeSize : Nat
  indexCount : Nat
  baseVertex : Int
  firstInstance : Nat
  instanceCount : Nat
deriving DecidableEq, Repr

/-- The body of one iteration of the `while i < total` loop at index `i`:
`end = (i + MAX_INSTANCES).min(total)`, `amount = end - i`, the slice
`instances[i..end]` is cast to bytes and staged with
`BufferSize::new(instance_bytes.len())`, and
`draw_indexed(0..QUAD_INDICES.len(), 0, 0..amount)` is recorded. -/
def mkDrawCall (instances : List Quad) (i : Nat) : DrawCall :=
  let endIdx := min (i + MAX_INSTANCES) instances.length
  let amount := endIdx - i
  let chunk := (instances.drop i).take amount
  let instanceBytes := (chunk.map quadToBytes).flatten
  { chunk := chunk
    instanceBytes := instanceBytes
    writeSize := instanceBytes.length
    indexCount := QUAD_INDICES.length
    baseVertex := 0
    firstInstance := 0
    instanceCount := amount }

/-- The `while i < total` loop of `Pipeline::draw`, started at loop index `i`:
issues one sub-batch per chunk and advances `i` by `MAX_INSTANCES`. -/
def drawBatchesAux (instances : List Quad) (i : Nat) : List DrawCall :=
  if h : i < instances.length then
    mkDrawCall instances i :: drawBatchesAux instances (i + MAX_INSTANCES)
  else []
termination_by instances.length - i
decreasing_by simp_wf; unfold MAX_INSTANCES; omega

/-- The full chunk loop of `Pipeline::draw`, from `i = 0`. -/
def drawBatches (instances : List Quad) : List DrawCall :=
  drawBatchesAux instances 0

/-- Fuel-indexed version of the chunk loop: `none` when the fuel runs out
before the loop condition `i < total` fails. Used to state termination. -/
def drawBatchesFuel (instances : List Quad) : Nat → Nat → Option (List DrawCall)
  | fuel, i =>
    if i < instances.length then
      match fuel with
      | 0 => none
      | fuel' + 1 =>
        (drawBatchesFuel instances fuel' (i + MAX_INSTANCES)).map
          (fun rest => mkDrawCall instances i :: rest)
    else some []

/-- The observable effect of one `Pipeline::draw` call: the uniform record it
uploads, the size passed to `BufferSize::new` for the uniform write, and the
ordered list of per-chunk sub-batches. -/
structure DrawTrace where
  uniforms : Uniforms
  uniformWriteSize : Nat
  calls : List DrawCall

/-- `Pipeline::draw(instances, transformation, scale, bounds)`: builds the
uniform record from the hardcoded literal `a` (NOT from `transformation`,
exactly as the source does), uploads it with size
`mem::size_of::<Uniforms>()`, then runs the chunk loop. -/
def draw (instances : List Quad) (transformation : Transformation) (scale : ℚ) :
    DrawTrace :=
  let a := hardcodedA
  let uniforms := Uniforms.from_a a scale
  { uniforms := uniforms
    uniformWriteSize := sizeOfUniforms
    calls := drawBatches instances }

/-! Helper lemmas about the chunk loop. -/

theorem drawBatchesAux_of_le (instances : List Quad) (i : Nat)
    (h : instances.length ≤ i) : drawBatchesAux instances i = [] := by
  rw [drawBatchesAux, dif_neg (by omega)]

theorem drawBatchesAux_of_lt (instances : List Quad) (i : Nat)
    (h : i < instances.length) :
    drawBatchesAux instances i =
      mkDrawCall instances i :: drawBatchesAux instances (i + MAX_INSTANCES) := by
  conv_lhs => rw [drawBatchesAux]
  rw [dif_pos h]

theorem length_quadToBytes (q : Quad) : (quadToBytes q).length = sizeOfQuad := by
  simp [quadToBytes, w32le, sizeOfQuad, quadFieldBytes]

theorem flatten_quadToBytes_length (l : List Quad) :
    ((l.map quadToBytes).flatten).length = sizeOfQuad * l.length := by
  induction l with
  | nil => simp
  | cons q t ih =>
    simp only [List.map_cons, List.flatten_cons, List.length_append,
      length_quadToBytes, ih, List.length_cons]
    ring

theorem mkDrawCall_instanceCount (instances : List Quad) (i : Nat) :
    (mkDrawCall instances i).instanceCount =
      min (i + MAX_INSTANCES) instances.length - i := rfl

theorem mkDrawCall_chunk (instances : List Quad) (i : Nat) :
    (mkDrawCall instances i).chunk =
      (instances.drop i).take (min (i + MAX_INSTANCES) instances.length - i) := rfl

theorem mkDrawCall_chunk_length (instances : List Quad) (i : Nat) :
    (mkDrawCall instances i).chunk.length = (mkDrawCall instances i).instanceCount := by
  rw [mkDrawCall_chunk, mkDrawCall_instanceCount, List.length_take, List.length_drop]
  omega

theorem mkDrawCall_writeSize (instances : List Quad) (i : Nat) :
    (mkDrawCall instances i).writeSize =
      sizeOfQuad * (mkDrawCall instances i).instanceCount := by
  have h : (mkDrawCall instances i).writeSize =
      ((((mkDrawCall instances i).chunk).map quadToBytes).flatten).length := rfl
  rw [h, flatten_quadToBytes_length, mkDrawCall_chunk_length]

theorem take_amount_append_drop (l : List Quad) (i : Nat) :
    (l.drop i).take (min (i + MAX_INSTANCES) l.length - i) ++
      l.drop (i + MAX_INSTANCES) = l.drop i := by
  rcases le_or_lt l.length (i + MAX_INSTANCES) with h | h
  · rw [List.drop_of_length_le h, List.append_nil]
    apply List.take_of_length_le
    rw [List.length_drop]
    omega
  · have hm : min (i + MAX_INSTANCES) l.length - i = MAX_INSTANCES := by omega
    rw [hm, ← List.drop_drop]
    exact List.take_append_drop MAX_INSTANCES (l.drop i)

theorem drawBatchesAux_flatten (instances : List Quad) (i : Nat) :
    (((drawBatchesAux instances i).map DrawCall.chunk)).flatten = instances.drop i := by
  have key : ∀ m i, instances.length - i ≤ m →
      (((drawBatchesAux instances i).map DrawCall.chunk)).flatten = instances.drop i := by
    intro m
    induction m with
    | zero =>
      intro i h
      rw [drawBatchesAux_of_le instances i (by omega),
        List.drop_of_length_le (by omega)]
      rfl
    | succ m ih =>
      intro i h
      by_cases hc : i < instances.length
      · rw [drawBatchesAux_of_lt instances i hc, List.map_cons, List.flatten_cons,
          ih (i + MAX_INSTANCES) (by unfold MAX_INSTANCES at *; omega),
          mkDrawCall_chunk]
        exact take_amount_append_drop instances i
      · rw [drawBatchesAux_of_le instances i (by omega),
          List.drop_of_length_le (by omega)]
        rfl
  exact key (instances.length - i) i le_rfl

theorem drawBatchesAux_length (instances : List Quad) (i : Nat) :
    (drawBatchesAux instances i).length =
      (instances.length - i + MAX_INSTANCES - 1) / MAX_INSTANCES := by
  have key : ∀ m i, instances.length - i ≤ m →
      (drawBatchesAux instances i).length =
        (instances.length - i + MAX_INSTANCES - 1) / MAX_INSTANCES := by
    intro m
    induction m with
    | zero =>
      intro i h
      rw [drawBatchesAux_of_le instances i (by omega)]
      unfold MAX_INSTANCES
      simp only [List.length_nil]
      omega
    | succ m ih =>
      intro i h
      by_cases hc : i < instances.length
      · rw [drawBatchesAux_of_lt instances i hc, List.length_cons,
          ih (i + MAX_INSTANCES) (by unfold MAX_INSTANCES at *; omega)]
        unfold MAX_INSTANCES at *
        omega
      · rw [drawBatchesAux_of_le instances i (by omega)]
        unfold MAX_INSTANCES
        simp only [List.length_nil]
        omega
  exact key (instances.length - i) i le_rfl

theorem drawBatchesAux_eq_nil_iff (instances : List Quad) (i : Nat) :
    drawBatchesAux instances i = [] ↔ instances.length ≤ i := by
  constructor
  · intro h
    by_contra hc
    rw [drawBatchesAux_of_lt instances i (by omega)] at h
    exact List.cons_ne_nil _ _ h
  · exact drawBatchesAux_of_le instances i

theorem drawBatchesAux_dropLast (instances : List Quad) (i : Nat) :
    ∀ b ∈ (drawBatchesAux instances i).dropLast, b.instanceCount = MAX_INSTANCES := by
  have key : ∀ m i, instances.length - i ≤ m →
      ∀ b ∈ (drawBatchesAux instances i).dropLast, b.instanceCount = MAX_INSTANCES := by
    intro m
    induction m with
    | zero =>
      intro i h
      rw [drawBatchesAux_of_le instances i (by omega)]
      intro b hb
      simp at hb
    | succ m ih =>
      intro i h
      by_cases hc : i < instances.length
      · rw [drawBatchesAux_of_lt instances i hc]
        rcases hnil : drawBatchesAux instances (i + MAX_INSTANCES) with _ | ⟨c, tail⟩
        · intro b hb
          simp at hb
        · intro b hb
          rw [List.dropLast_cons_of_ne_nil (by simp)] at hb
          rcases List.mem_cons.mp hb with hb | hb
          · subst hb
            have hlt : i + MAX_INSTANCES < instances.length := by
              by_contra hge
              rw [drawBatchesAux_of_le instances _ (by omega)] at hnil
              exact List.cons_ne_nil _ _ hnil.symm
            rw [mkDrawCall_instanceCount]
            omega
          · exact ih (i + MAX_INSTANCES) (by unfold MAX_INSTANCES at *; omega) b
              (by rw [hnil]; exact hb)
      · rw [drawBatchesAux_of_le instances i (by omega)]
        intro b hb
        simp at hb
  exact key (instances.length - i) i le_rfl

theorem drawBatchesAux_getLast? (instances : List Quad) (i : Nat) :
    ((drawBatchesAux instances i).getLast?).map DrawCall.instanceCount =
      if instances.length ≤ i then none
      else if (instances.length - i) % MAX_INSTANCES = 0 then some MAX_INSTANCES
      else some ((instances.length - i) % MAX_INSTANCES) := by
  have key : ∀ m i, instances.length - i ≤ m →
      ((drawBatchesAux instances i).getLast?).map DrawCall.instanceCount =
        if instances.length ≤ i then none
        else if (instances.length - i) % MAX_INSTANCES = 0 then some MAX_INSTANCES
        else some ((instances.length - i) % MAX_INSTANCES) := by
    intro m
    induction m with
    | zero =>
      intro i h
      rw [drawBatchesAux_of_le instances i (by omega), if_pos (by omega)]
      rfl
    | succ m ih =>
      intro i h
      by_cases hc : i < instances.length
      · rw [drawBatchesAux_of_lt instances i hc, if_neg (by omega)]
        rcases hnil : drawBatchesAux instances (i + MAX_INSTANCES) with _ | ⟨c, tail⟩
        · have hge : instances.length ≤ i + MAX_INSTANCES :=
            (drawBatchesAux_eq_nil_iff instances (i + MAX_INSTANCES)).mp hnil
          rw [List.getLast?_singleton, Option.map_some']
          rw [mkDrawCall_instanceCount]
          unfold MAX_INSTANCES at *
          split <;> [skip; skip] <;> congr 1 <;> omega
        · rw [List.getLast?_cons_cons,
            ← hnil, ih (i + MAX_INSTANCES) (by unfold MAX_INSTANCES at *; omega)]
          have hlt : i + MAX_INSTANCES < instances.length := by
            by_contra hge
            rw [drawBatchesAux_of_le instances _ (by omega)] at hnil
            exact List.cons_ne_nil _ _ hnil.symm
          rw [if_neg (by omega)]
          unfold MAX_INSTANCES at *
          have hmod : (instances.length - (i + 100000)) % 100000 =
              (instances.length - i) % 100000 := by omega
          rw [hmod]
      · rw [drawBatchesAux_of_le instances i (by omega), if_pos (by omega)]
        rfl
  exact key (instances.length - i) i le_rfl

theorem drawBatchesAux_getD_chunk (instances : List Quad) (i k : Nat) :
    (((drawBatchesAux instances i).map DrawCall.chunk)).getD k [] =
      (instances.drop (i + k * MAX_INSTANCES)).take MAX_INSTANCES := by
  have key : ∀ m i, instances.length - i ≤ m → ∀ k,
      (((drawBatchesAux instances i).map DrawCall.chunk)).getD k [] =
        (instances.drop (i + k * MAX_INSTANCES)).take MAX_INSTANCES := by
    intro m
    induction m with
    | zero =>
      intro i h k
      rw [drawBatchesAux_of_le instances i (by omega),
        List.drop_of_length_le (by
          have : 0 < MAX_INSTANCES := by unfold MAX_INSTANCES; omega
          omega)]
      rfl
    | succ m ih =>
      intro i h k
      by_cases hc : i < instances.length
      · rw [drawBatchesAux_of_lt instances i hc, List.map_cons]
        cases k with
        | zero =>
          rw [List.getD_cons_zero, mkDrawCall_chunk]
          rw [Nat.zero_mul, Nat.add_zero]
          rw [List.take_eq_take]
          rw [List.length_drop]
          omega
        | succ k =>
          rw [List.getD_cons_succ,
            ih (i + MAX_INSTANCES) (by unfold MAX_INSTANCES at *; omega) k]
          congr 2
          ring
      · rw [drawBatchesAux_of_le instances i (by omega),
          List.drop_of_length_le (by
            have : 0 < MAX_INSTANCES := by unfold MAX_INSTANCES; omega
            omega)]
        rfl
  exact key (instances.length - i) i le_rfl k

theorem drawBatchesFuel_eq (instances : List Quad) :
    ∀ fuel i, (instances.length - i + MAX_INSTANCES - 1) / MAX_INSTANCES ≤ fuel →
      drawBatchesFuel instances fuel i = some (drawBatchesAux instances i) := by
  intro fuel
  induction fuel with
  | zero =>
    intro i h
    have hle : instances.length ≤ i := by
      unfold MAX_INSTANCES at h
      omega
    rw [drawBatchesFuel, if_neg (by omega), drawBatchesAux_of_le instances i hle]
  | succ fuel ih =>
    intro i h
    by_cases hc : i < instances.length
    · rw [drawBatchesFuel, if_pos hc,
        ih (i + MAX_INSTANCES) (by unfold MAX_INSTANCES at *; omega),
        Option.map_some', drawBatchesAux_of_lt instances i hc]
    · rw [drawBatchesFuel, if_neg hc, drawBatchesAux_of_le instances i (by omega)]

theorem mem_drawBatchesAux (instances : List Quad) (i : Nat) :
    ∀ b ∈ drawBatchesAux instances i,
      ∃ j, j < instances.length ∧ b = mkDrawCall instances j := by
  have key : ∀ m i, instances.length - i ≤ m → ∀ b ∈ drawBatchesAux instances i,
      ∃ j, j < instances.length ∧ b = mkDrawCall instances j := by
    intro m
    induction m with
    | zero =>
      intro i h b hb
      rw [drawBatchesAux_of_le instances i (by omega)] at hb
      simp at hb
    | succ m ih =>
      intro i h b hb
      by_cases hc : i < instances.length
      · rw [drawBatchesAux_of_lt instances i hc] at hb
        rcases List.mem_cons.mp hb with hb | hb
        · exact ⟨i, hc, hb⟩
        · exact ih (i + MAX_INSTANCES) (by unfold MAX_INSTANCES at *; omega) b hb
      · rw [drawBatchesAux_of_le instances i (by omega)] at hb
        simp at hb
  exact key (instances.length - i) i le_rfl

theorem mkDrawCall_instanceCount_bounds (instances : List Quad) (j : Nat)
    (h : j < instances.length) :
    1 ≤ (mkDrawCall instances j).instanceCount ∧
      (mkDrawCall instances j).instanceCount ≤ MAX_INSTANCES := by
  rw [mkDrawCall_instanceCount]
  unfold MAX_INSTANCES
  omega

/-! The claims. -/

/-- C1: the claim says that for every call to `draw` with caller-supplied
transformation `T` and scale `s`, the uploaded uniform record contains exactly
`T` as its transform and `s` as its scale. The code instead builds the uniform
from the hardcoded literal matrix `a`, ignoring `T` (the scale is passed
through correctly). This theorem evaluates the code at a failing input: with
`T` the identity matrix and `s = 2`, the uploaded transform is the hardcoded
matrix and differs from `T.as_ref`. -/
theorem C1_draw_uses_hardcoded_matrix :
    (draw [] ⟨[1, 0, 0, 0, 0, 1, 0, 0, 0, 0, 1, 0, 0, 0, 0, 1]⟩ 2).uniforms.transform
        = hardcodedA
    ∧ (draw [] ⟨[1, 0, 0, 0, 0, 1, 0, 0, 0, 0, 1, 0, 0, 0, 0, 1]⟩ 2).uniforms.transform
        ≠ Transformation.as_ref ⟨[1, 0, 0, 0, 0, 1, 0, 0, 0, 0, 1, 0, 0, 0, 0, 1]⟩
    ∧ (draw [] ⟨[1, 0, 0, 0, 0, 1, 0, 0, 0, 0, 1, 0, 0, 0, 0, 1]⟩ 2).uniforms.scale = 2 := by
  refine ⟨rfl, ?_, rfl⟩
  intro heq
  have h : hardcodedA = [1, 0, 0, 0, 0, 1, 0, 0, 0, 0, 1, 0, 0, 0, 0, 1] := heq
  unfold hardcodedA at h
  simp only [List.cons.injEq] at h
  norm_num at h

/-- C2: for an instance sequence of length N and chunk capacity
C = MAX_INSTANCES = 100000, the loop issues exactly ceil(N/C) sub-batches;
every sub-batch except possibly the last has exactly C instances; the last
has N mod C instances (or C when N mod C = 0); and for N = 0 no sub-batch is
issued. -/
theorem C2_subbatch_count_and_sizes (instances : List Quad) :
    (drawBatches instances).length =
      (instances.length + MAX_INSTANCES - 1) / MAX_INSTANCES
    ∧ ((drawBatches instances).dropLast.all
        fun b => b.instanceCount == MAX_INSTANCES) = true
    ∧ ((drawBatches instances).getLast?).map DrawCall.instanceCount =
        (if instances.length = 0 then none
         else if instances.length % MAX_INSTANCES = 0 then some MAX_INSTANCES
         else some (instances.length % MAX_INSTANCES))
    ∧ (drawBatches instances = [] ↔ instances.length = 0) := by
  refine ⟨?_, ?_, ?_, ?_⟩
  · rw [drawBatches, drawBatchesAux_length, Nat.sub_zero]
  · rw [List.all_eq_true]
    intro b hb
    rw [beq_iff_eq]
    exact drawBatchesAux_dropLast instances 0 b hb
  · rw [drawBatches, drawBatchesAux_getLast?, Nat.sub_zero]
    by_cases h : instances.length = 0
    · have h0 : instances.length ≤ 0 := by omega
      rw [if_pos h0, if_pos h]
    · have h0 : ¬ instances.length ≤ 0 := by omega
      rw [if_neg h0, if_neg h]
  · rw [drawBatches, drawBatchesAux_eq_nil_iff]
    omega

/-- C3: the chunks uploaded and drawn are the contiguous slices
instances[0..C], instances[C..2C], ..., in input order: their concatenation
is the whole input sequence, and the k-th chunk is exactly the slice of
(at most) C instances starting at index k*C. -/
theorem C3_chunks_are_ordered_slices (instances : List Quad) :
    (((drawBatches instances).map DrawCall.chunk)).flatten = instances
    ∧ ∀ k : Nat, (((drawBatches instances).map DrawCall.chunk)).getD k [] =
        (instances.drop (k * MAX_INSTANCES)).take MAX_INSTANCES := by
  constructor
  · rw [drawBatches, drawBatchesAux_flatten, List.drop_zero]
  · intro k
    rw [drawBatches, drawBatchesAux_getD_chunk, Nat.zero_add]

/-- C4: every chunk issues exactly one indexed instanced draw whose index
count is 6 (the length of QUAD_INDICES), whose instance count equals the
chunk's size, and whose base vertex and first instance are both 0. -/
theorem C4_draw_indexed_arguments (instances : List Quad) :
    ((drawBatches instances).all fun b =>
      b.indexCount == QUAD_INDICES.length && QUAD_INDICES.length == 6 &&
      b.instanceCount == b.chunk.length &&
      b.baseVertex == 0 && b.firstInstance == 0) = true := by
  rw [List.all_eq_true]
  intro b hb
  obtain ⟨j, hj, rfl⟩ := mem_drawBatchesAux instances 0 b hb
  simp only [Bool.and_eq_true, beq_iff_eq]
  exact ⟨⟨⟨⟨rfl, rfl⟩, (mkDrawCall_chunk_length instances j).symm⟩, rfl⟩, rfl⟩

/-- C5 counterexample: the claim says the Quad record is consumed as 5 vertex
attributes of sizes 2,2,4,4,4,1 floats, but the pipeline declares 6
per-instance vertex attributes (shader locations 1 through 6), not 5. -/
theorem C5_attr_count_is_six_not_five :
    quadVertexAttrFloats.length = 6 ∧ ¬ quadVertexAttrFloats.length = 5 := by
  decide

/-- C5 (amended): the Quad record is a fixed-size, tightly packed record of
17 32-bit fields (position 2, size 2, color 4, border_color 4,
border_radius 4, border_width 1; 68 bytes, no padding), and its byte layout
matches the pipeline's per-instance vertex attribute declarations: 6 vertex
attributes of sizes 2,2,4,4,4,1 floats, with identical offsets, and each
serialized record is exactly sizeOfQuad bytes. -/
theorem C5_quad_layout_matches_attributes :
    sizeOfQuad = 68
    ∧ sizeOfQuad = 17 * 4
    ∧ quadVertexAttrFloats.sum = 17
    ∧ quadVertexAttrFloats.length = 6
    ∧ quadVertexAttrFloats.map (fun s => s * 4) = quadFieldBytes
    ∧ offsetsFrom 0 (quadVertexAttrFloats.map (fun s => s * 4)) =
        offsetsFrom 0 quadFieldBytes
    ∧ (∀ q : Quad, (quadToBytes q).length = sizeOfQuad) := by
  refine ⟨by decide, by decide, by decide, by decide, by decide, by decide, ?_⟩
  exact length_quadToBytes

/-- C6: serializing a Quad into instance-buffer bytes and deserializing those
bytes back via the same declared layout reproduces every field bit-exactly,
for every Quad whose fields are genuine 32-bit patterns. -/
theorem C6_byte_roundtrip_identity (q : Quad) (h : QuadWF q) :
    quadOfBytes (quadToBytes q) = q := by
  obtain ⟨⟨p0, p1⟩, ⟨s0, s1⟩, ⟨c0, c1, c2, c3⟩, ⟨bc0, bc1, bc2, bc3⟩,
    ⟨br0, br1, br2, br3⟩, bw⟩ := q
  unfold QuadWF WordWF at h
  simp only at h
  simp only [quadToBytes, quadOfBytes, w32le, rdWord, List.cons_append,
    List.nil_append, Quad.mk.injEq, Prod.mk.injEq]
  omega

/-- Witness for C6 at a concrete Quad with 17 distinct field values. -/
theorem C6_byte_roundtrip_identity_witness :
    QuadWF ⟨(1, 2), (3, 4), (5, 6, 7, 8), (9, 10, 11, 12), (13, 14, 15, 16), 17⟩
    ∧ quadOfBytes (quadToBytes
        ⟨(1, 2), (3, 4), (5, 6, 7, 8), (9, 10, 11, 12), (13, 14, 15, 16), 17⟩) =
        ⟨(1, 2), (3, 4), (5, 6, 7, 8), (9, 10, 11, 12), (13, 14, 15, 16), 17⟩ :=
  ⟨by decide, C6_byte_roundtrip_identity _ (by decide)⟩

/-- C7: the Uniforms record is 80 bytes, a multiple of 16; the transform
matrix occupies the first 64 bytes (offset 0); scale sits at offset 64 and
the three padding floats at offsets 68, 72, 76, filling up to 80. -/
theorem C7_uniforms_layout :
    sizeOfUniforms = 80
    ∧ sizeOfUniforms % 16 = 0
    ∧ offsetsFrom 0 uniformsFieldBytes = [0, 64, 68]
    ∧ offsetsFrom 68 [4, 4, 4] = [68, 72, 76]
    ∧ 68 + 3 * 4 = sizeOfUniforms := by
  decide

/-- C8: the static geometry is exactly the 4 unit-quad corners
(0,0), (1,0), (1,1), (0,1) and the fixed 6-index triangulation 0,1,2,0,2,3,
with every index in range of the vertex list. -/
theorem C8_static_geometry :
    QUAD_VERTS = [⟨(0, 0)⟩, ⟨(1, 0)⟩, ⟨(1, 1)⟩, ⟨(0, 1)⟩]
    ∧ QUAD_INDICES = [0, 1, 2, 0, 2, 3]
    ∧ QUAD_INDICES.length = 6
    ∧ (QUAD_INDICES.all fun ix => decide (ix < QUAD_VERTS.length)) = true := by
  decide

/-- C9: in every call to `draw`, each requested write-region size is nonzero
and within the destination buffer's capacity: the uniform write size is the
constant `size_of::<Uniforms>() > 0`, and every chunk's instance byte length
is strictly positive and at most `MAX_INSTANCES * size_of::<Quad>()`, the
instance buffer's allocated size, so `BufferSize::new(..).unwrap()` never
panics. -/
theorem C9_buffer_write_sizes_safe (instances : List Quad)
    (t : Transformation) (s : ℚ) :
    0 < (draw instances t s).uniformWriteSize
    ∧ (draw instances t s).uniformWriteSize = sizeOfUniforms
    ∧ ((draw instances t s).calls.all fun b =>
        decide (0 < b.writeSize) &&
        decide (b.writeSize ≤ MAX_INSTANCES * sizeOfQuad)) = true := by
  refine ⟨?_, rfl, ?_⟩
  · show (0:Nat) < sizeOfUniforms
    decide
  rw [List.all_eq_true]
  intro b hb
  obtain ⟨j, hj, rfl⟩ := mem_drawBatchesAux instances 0 b hb
  have hws := mkDrawCall_writeSize instances j
  have hbd := mkDrawCall_instanceCount_bounds instances j hj
  rw [Bool.and_eq_true, decide_eq_true_eq, decide_eq_true_eq]
  constructor
  · rw [hws]
    have : (0:Nat) < sizeOfQuad := by decide
    exact Nat.mul_pos this (by omega)
  · rw [hws, Nat.mul_comm MAX_INSTANCES sizeOfQuad]
    exact Nat.mul_le_mul_left sizeOfQuad hbd.2

/-- C10: the chunking loop terminates for every finite instance slice: with
fuel for N / MAX_INSTANCES + 1 loop-body iterations, the fuel-indexed loop
never runs out and computes exactly the batches of the unbounded loop. -/
theorem C10_chunk_loop_terminates (instances : List Quad) :
    drawBatchesFuel instances (instances.length / MAX_INSTANCES + 1) 0 =
      some (drawBatches instances) := by
  rw [drawBatches]
  apply drawBatchesFuel_eq
  unfold MAX_INSTANCES
  omega

end Rio
